import Mathlib

/-!
Verification of the duration-extraction decoder of DeepForcedAligner.

The repository sources under inspection are `src/dfaligner/model.py` and
`src/dfaligner/config/__init__.py`.  The decoder module
(`dfaligner/duration_extraction.py`, providing
`extract_durations_with_dijkstra` and the beam variant) is imported by
`model.py` but its code is not part of the visible sources, so the decoder
itself is modelled from the specification (`spec.md`, sections 3, 4 and 7):
each such definition carries a doc comment starting with
`Modelled from the spec:`.  Everything concerning `model.py` and the config
enum is translated directly from the source.
-/

namespace DFA

/-- Modelled from the spec (section 7): the error taxonomy of a decode call.
`invalidInput` for empty or out-of-range inputs, `infeasibleAlignment` when no
monotonic path can exist, `beamExhausted` when the beam loses every hypothesis
that could reach the final token. -/
inductive DecodeError where
  | invalidInput
  | infeasibleAlignment
  | beamExhausted
deriving DecidableEq

/-- Modelled from the spec (section 3, AlignmentPath): one admissible step of a
monotonic path, `path[i+1] ∈ \x7bpath[i], path[i]+1\x7d`. -/
def stepRel (x y : Nat) : Prop := y = x ∨ y = x + 1

instance : DecidableRel stepRel := fun x y =>
  decidable_of_iff (y = x ∨ y = x + 1) Iff.rfl

/-- Modelled from the spec (section 3, AlignmentPath): a monotonic alignment
path for `T` frames over `N` tokens: length `T`, starts at token 0, ends at
token `N-1`, and each step stays or advances by one token. -/
def isMonotonicPath (T N : Nat) (p : List Nat) : Prop :=
  p.length = T ∧ p.headD 0 = 0 ∧ p.getLastD 0 = N - 1 ∧ List.Chain' stepRel p

/-- Modelled from the spec (section 4.1): total cost of a path is the sum of
`cost(i, path[i])` over all frames `i`. -/
def pathCost (c : Nat → Nat → ℚ) (p : List Nat) : ℚ :=
  ((List.range p.length).map fun i => c i (p.getD i 0)).sum

/-- Modelled from the spec (section 4.2): the dynamic-programming table.
`best c i j` is the minimum cumulative cost of reaching cell `(i, j)`;
`⊤` marks an unreachable cell.  Base case `best 0 0 = cost(0,0)`,
`best 0 j = ⊤` for `j > 0`; recurrence
`best i j = cost(i,j) + min (best (i-1) j) (best (i-1) (j-1))`, the second
argument treated as `⊤` when `j = 0`. -/
def best (c : Nat → Nat → ℚ) : Nat → Nat → WithTop ℚ
  | 0, 0 => (c 0 0 : ℚ)
  | 0, _ + 1 => ⊤
  | i + 1, 0 => (c (i + 1) 0 : ℚ) + best c i 0
  | i + 1, j + 1 => (c (i + 1) (j + 1) : ℚ) + min (best c i (j + 1)) (best c i j)

/-- Modelled from the spec (section 4.2): backtracking from cell `(i, j)` to
`(0, 0)` along recorded predecessors, preferring the "advance" predecessor on
an exact numeric tie (the canonical tie-break). -/
def backtrack (c : Nat → Nat → ℚ) : Nat → Nat → List Nat
  | 0, j => [j]
  | i + 1, 0 => backtrack c i 0 ++ [0]
  | i + 1, j + 1 =>
    if best c i j ≤ best c i (j + 1) then backtrack c i j ++ [j + 1]
    else backtrack c i (j + 1) ++ [j + 1]

/-- Modelled from the spec (section 3, PosteriorMatrix): the symbol range `V`
of a posterior matrix, i.e. the width of its rows. -/
def numSymbols (P : List (List ℚ)) : Nat := (P.headD []).length

/-- Modelled from the spec (section 3, PosteriorMatrix): the probability entry
`P[i][v]`. -/
def entry (P : List (List ℚ)) (i v : Nat) : ℚ := (P.getD i []).getD v 0

/-- Modelled from the spec (section 4.1): the floored probability
`max(P[i][token[j]], ε)` that is fed to the negated logarithm; the floor keeps
exact zeros away from the logarithm. -/
def flooredProb (P : List (List ℚ)) (tokens : List Nat) (eps : ℚ) (i j : Nat) : ℚ :=
  max (entry P i (tokens.getD j 0)) eps

/-- Modelled from the spec (section 4.1): the per-cell cost
`cost(i, j) = -log(max(P[i][token[j]], ε))`.  The negated logarithm is kept
abstract as a parameter `negLog`; every theorem below holds for an arbitrary
such function. -/
def cost (negLog : ℚ → ℚ) (P : List (List ℚ)) (tokens : List Nat) (eps : ℚ)
    (i j : Nat) : ℚ :=
  negLog (flooredProb P tokens eps i j)

/-- Modelled from the spec (section 7, InvalidInput): the input is valid when
`N ≥ 1`, `T ≥ 1` and every token index lies in the matrix's symbol range. -/
def validInput (P : List (List ℚ)) (tokens : List Nat) : Prop :=
  tokens ≠ [] ∧ P ≠ [] ∧ ∀ t ∈ tokens, t < numSymbols P

instance (P : List (List ℚ)) (tokens : List Nat) : Decidable (validInput P tokens) :=
  decidable_of_iff (tokens ≠ [] ∧ P ≠ [] ∧ ∀ t ∈ tokens, t < numSymbols P) Iff.rfl

/-- Modelled from the spec (sections 4.2 and 7): the exact decoder running on
an already-built cost function: fail when `T < N` or the final cell is
unreachable, otherwise backtrack from `(T-1, N-1)`. -/
def decodeExactFrom (c : Nat → Nat → ℚ) (T N : Nat) : Except DecodeError (List Nat) :=
  if T < N then .error .infeasibleAlignment
  else if best c (T - 1) (N - 1) = ⊤ then .error .infeasibleAlignment
  else .ok (backtrack c (T - 1) (N - 1))

/-- Modelled from the spec (sections 4.2 and 7):
`decode_exact(PosteriorMatrix, TokenSequence) → AlignmentPath`.  Input
validity is checked eagerly before any computation; then the DP shortest path
is computed and backtracked. -/
def decode_exact (negLog : ℚ → ℚ) (eps : ℚ) (P : List (List ℚ))
    (tokens : List Nat) : Except DecodeError (List Nat) :=
  if validInput P tokens then
    decodeExactFrom (cost negLog P tokens eps) P.length tokens.length
  else .error .invalidInput

/-- Modelled from the spec (section 4.4): Boolean check that consecutive path
entries stay or advance by one. -/
def stepsOkB : List Nat → Bool
  | [] => true
  | [_] => true
  | a :: b :: t => (b == a || b == a + 1) && stepsOkB (b :: t)

/-- Modelled from the spec (section 4.4): defensive validity check of the
duration reducer: the path must be nonempty, start at token 0, end at token
`N-1` and be monotonic. -/
def pathOkB (N : Nat) (p : List Nat) : Bool :=
  !p.isEmpty && (p.headD 0 == 0) && (p.getLastD 0 == N - 1) && stepsOkB p

/-- Modelled from the spec (section 4.4):
`to_durations(AlignmentPath, N) → DurationSequence`; `duration[j]` counts the
frames assigned to token `j`.  Fails (returns `none`) when the path violates
monotonicity or coverage. -/
def to_durations (p : List Nat) (N : Nat) : Option (List Nat) :=
  if pathOkB N p then some ((List.range N).map fun j => p.count j) else none

/-- Modelled from the spec (section 4.3): a beam hypothesis: a cumulative
cost, a current token index, whether the hypothesis arrived via "advance",
and the partial path accumulator. -/
structure Hyp where
  tok : Nat
  cost : ℚ
  via : Bool
  path : List Nat
deriving DecidableEq

/-- Modelled from the spec (section 4.3): expand one hypothesis at frame `i`
by its legal transitions: stay, and advance when not yet at the last token. -/
def expand (c : Nat → Nat → ℚ) (N i : Nat) (h : Hyp) : List Hyp :=
  ⟨h.tok, h.cost + c i h.tok, false, h.path ++ [h.tok]⟩ ::
    (if h.tok + 1 < N then
      [⟨h.tok + 1, h.cost + c i (h.tok + 1), true, h.path ++ [h.tok + 1]⟩]
    else [])

/-- Modelled from the spec (section 4.3): fold step of the minimum-cost
selection: compare one hypothesis against the minimum of the rest. -/
def consMin (h : Hyp) : Option Hyp → Option Hyp
  | none => some h
  | some m => if h.cost ≤ m.cost then some h else some m

/-- Modelled from the spec (section 4.3): the minimum-cost hypothesis of a
list (`none` on the empty list). -/
def minByCost : List Hyp → Option Hyp
  | [] => none
  | h :: t => consMin h (minByCost t)

/-- Modelled from the spec (section 4.3): combine the minimum-cost "advance"
candidate and the minimum-cost "stay" candidate, preferring "advance" on an
exact cost tie. -/
def minCombine : Option Hyp → Option Hyp → Option Hyp
  | some a, some s => if a.cost ≤ s.cost then some a else some s
  | some a, none => some a
  | none, some s => some s
  | none, none => none

/-- Modelled from the spec (section 4.3): merge the candidates that land on
token index `j`, keeping only the lower-cost one and preferring, on an exact
tie, the candidate that arrived via "advance" (the canonical tie-break). -/
def bestAt (cands : List Hyp) (j : Nat) : Option Hyp :=
  minCombine
    (minByCost ((cands.filter fun h => h.tok == j).filter fun h => h.via))
    (minByCost ((cands.filter fun h => h.tok == j).filter fun h => !h.via))

/-- Modelled from the spec (section 4.3): ordering used to keep the `K`
lowest-cumulative-cost candidates, breaking cost ties by preferring the
hypothesis that arrived via "advance". -/
def hypLE (a b : Hyp) : Bool :=
  a.cost < b.cost || (a.cost == b.cost && (a.via || !b.via))

/-- Modelled from the spec (section 4.3): insertion into a list sorted by
`hypLE`. -/
def insertHyp (h : Hyp) : List Hyp → List Hyp
  | [] => [h]
  | a :: t => if hypLE h a then h :: a :: t else a :: insertHyp h t

/-- Modelled from the spec (section 4.3): sort hypotheses by cumulative cost
(advance-first on ties). -/
def sortHyps : List Hyp → List Hyp
  | [] => []
  | a :: t => insertHyp a (sortHyps t)

/-- Modelled from the spec (section 4.3): one beam step at frame `i`: expand
every surviving hypothesis, merge candidates landing on the same token index,
keep the `K` lowest-cost survivors. -/
def beamStep (c : Nat → Nat → ℚ) (N K i : Nat) (hyps : List Hyp) : List Hyp :=
  let cands := hyps.flatMap (expand c N i)
  let merged := (List.range N).filterMap (bestAt cands)
  (sortHyps merged).take K

/-- Modelled from the spec (section 4.3): the surviving hypotheses after
processing frames `0..i`; at frame 0 the only hypothesis is
`(cost(0,0), 0, [0])`. -/
def beamRun (c : Nat → Nat → ℚ) (N K : Nat) : Nat → List Hyp
  | 0 => [⟨0, c 0 0, false, [0]⟩]
  | i + 1 => beamStep c N K (i + 1) (beamRun c N K i)

/-- Modelled from the spec (sections 4.3 and 7):
`decode_beam(PosteriorMatrix, TokenSequence, beam_width K) → AlignmentPath`.
Eager input validation, infeasibility on `T < N`, then beam search; if no
surviving hypothesis reaches token `N-1` the search is exhausted. -/
def decode_beam (negLog : ℚ → ℚ) (eps : ℚ) (P : List (List ℚ))
    (tokens : List Nat) (K : Nat) : Except DecodeError (List Nat) :=
  if validInput P tokens then
    if P.length < tokens.length then .error .infeasibleAlignment
    else
      match (beamRun (cost negLog P tokens eps) tokens.length K
          (P.length - 1)).find? (fun h => h.tok == tokens.length - 1) with
      | some h => .ok h.path
      | none => .error .beamExhausted
  else .error .invalidInput

/-- Verification invariant for the beam search: after processing frames
`0..i`, every surviving hypothesis carries a token index below `N`, a
cumulative cost equal to the DP optimum of its cell, a path accumulator whose
total cost equals that cumulative cost, and a path of length `i + 1`; and
every reachable token index `j ≤ i` below `N` is represented. -/
def goodRow (c : Nat → Nat → ℚ) (N i : Nat) (hyps : List Hyp) : Prop :=
  (∀ h ∈ hyps, h.tok < N ∧
    ((h.cost : WithTop ℚ) = best c i h.tok) ∧
    h.cost = pathCost c h.path ∧ h.path.length = i + 1) ∧
  (∀ j, j < N → j ≤ i → ∃ h ∈ hyps, h.tok = j)

/-- From `src/dfaligner/config/__init__.py` lines 17-19: the extraction-method
selector enum, with exactly the two members `beam` and `dijkstra`. -/
inductive DFAlignerExtractionMethod where
  | beam
  | dijkstra
deriving DecidableEq

/-- From `src/dfaligner/model.py` lines 216-218: `Aligner._generate_plots`
computes durations by calling `extract_durations_with_dijkstra`
unconditionally; the configured `extraction_method` is not consulted anywhere
in `model.py`.  The function returns which decoder actually runs given the
configured selector. -/
def generate_plots_decoder (_m : DFAlignerExtractionMethod) :
    DFAlignerExtractionMethod :=
  DFAlignerExtractionMethod.dijkstra

/-- From `src/dfaligner/model.py` lines 224-227: the textual duration
rendering of `_generate_plots`:
`"".join(c * durations[i] for i, c in enumerate(tokenize(target_text)))`.
Iteration is driven by the token list; indexing `durations[i]` raises
(modelled as `none`) when the duration list is shorter than the token list. -/
def target_duration_rep {γ : Type} (toks : List γ) (durs : List Nat) :
    Option (List γ) :=
  if toks.length ≤ durs.length then
    some ((toks.zip durs).flatMap fun p => List.replicate p.2 p.1)
  else none

/-- From `src/dfaligner/model.py` line 92: the guard of the step increment in
`Aligner.forward` is `if self.train:`, which tests the truthiness of the bound
method `self.train` — always `True` in Python — rather than the module's
`self.training` flag. -/
def self_train_truthy : Bool := true

/-- From `src/dfaligner/model.py` lines 91-93: the effect of one
`Aligner.forward` call on the `step` buffer (registered at line 76), given the
module's training-mode flag. -/
def forward_step (_training_mode : Bool) (step : Int) : Int :=
  if self_train_truthy then step + 1 else step

/-- From `src/dfaligner/model.py` line 169: the separator used by
`predict_step` when composing output file names. -/
def predictSep : String := "--"

/-- From `src/dfaligner/model.py` lines 182-185: the output file name of
`predict_step` for one batch item:
`sep.join([basename, speaker, language, "duration.npy"])`. -/
def predict_write_name (basename speaker language : String) : String :=
  String.intercalate predictSep [basename, speaker, language, "duration.npy"]

/-- From `src/dfaligner/model.py` line 177: row-wise softmax
(`torch.softmax(pred, dim=-1)`), with the exponential kept abstract as a
parameter `e`. -/
def softmax_row (e : ℚ → ℚ) (xs : List ℚ) : List ℚ :=
  let exps := xs.map e
  exps.map fun v => v / exps.sum

/-- From `src/dfaligner/model.py` lines 167-188: `Aligner.predict_step`.  For
each batch item `b` it truncates the network output to `mel_len[b]` frames,
applies the row-wise softmax, and records a write of the resulting matrix
under the joined file name.  No duration-extraction decoder appears in its
body: the saved object is the frame-by-symbol posterior matrix itself. -/
def predict_step (e : ℚ → ℚ) (predBatch : List (List (List ℚ)))
    (melLen : List Nat) (basenames speakers languages : List String) :
    List (String × List (List ℚ)) :=
  (List.range predBatch.length).map fun b =>
    (predict_write_name (basenames.getD b "") (speakers.getD b "")
        (languages.getD b ""),
      ((predBatch.getD b []).take (melLen.getD b 0)).map (softmax_row e))

/-! ### Lemmas about the dynamic-programming table -/

theorem best_ne_top (c : Nat → Nat → ℚ) :
    ∀ i j, j ≤ i → best c i j ≠ ⊤ := by
  intro i
  induction i with
  | zero =>
    intro j hj
    interval_cases j
    simp [best]
  | succ i ih =>
    intro j hj
    match j with
    | 0 =>
      have h0 : best c i 0 ≠ ⊤ := ih 0 (Nat.zero_le i)
      simp only [best, Ne, WithTop.add_eq_top]
      push_neg
      exact ⟨WithTop.coe_ne_top, h0⟩
    | j + 1 =>
      have hji : j ≤ i := Nat.lt_succ_iff.mp hj
      have h0 : best c i j ≠ ⊤ := ih j hji
      have hmin : min (best c i (j + 1)) (best c i j) ≠ ⊤ :=
        ne_top_of_le_ne_top h0 (min_le_right _ _)
      simp only [best, Ne, WithTop.add_eq_top]
      push_neg
      exact ⟨WithTop.coe_ne_top, hmin⟩

theorem best_eq_top (c : Nat → Nat → ℚ) :
    ∀ i j, i < j → best c i j = ⊤ := by
  intro i
  induction i with
  | zero =>
    intro j hj
    match j, hj with
    | j + 1, _ => simp [best]
  | succ i ih =>
    intro j hj
    match j, hj with
    | j + 1, hj =>
      have h1 : best c i (j + 1) = ⊤ := ih (j + 1) (Nat.lt_of_succ_lt_succ (Nat.lt_succ_of_lt hj))
      have h2 : best c i j = ⊤ := ih j (Nat.lt_of_succ_lt_succ hj)
      simp [best, h1, h2]

theorem headD_append_left {q : List Nat} (a d : Nat) (hne : q ≠ []) :
    (q ++ [a]).headD d = q.headD d := by
  cases q with
  | nil => exact absurd rfl hne
  | cons x t => simp

theorem getD_append_length (q : List Nat) (a d : Nat) :
    (q ++ [a]).getD q.length d = a := by
  rw [List.getD_eq_getElem]
  · simp
  · simp

theorem pathCost_append_singleton (c : Nat → Nat → ℚ) (q : List Nat) (a : Nat) :
    pathCost c (q ++ [a]) = pathCost c q + c q.length a := by
  unfold pathCost
  have hlen : (q ++ [a]).length = q.length + 1 := by simp
  rw [hlen, List.range_succ, List.map_append, List.sum_append]
  congr 1
  · apply congrArg
    apply List.map_congr_left
    intro k hk
    have hk2 : k < q.length := List.mem_range.mp hk
    rw [List.getD_append _ _ _ _ hk2]
  · simp [getD_append_length]

theorem pathCost_singleton (c : Nat → Nat → ℚ) (a : Nat) :
    pathCost c [a] = c 0 a := by
  simp [pathCost, List.range_succ]

/-- The bundled specification of `backtrack`: for a reachable cell `(i, j)`
the backtracked list has length `i + 1`, starts at token 0, ends at token `j`,
is monotonic, and its total cost equals the DP value `best c i j`. -/
theorem backtrack_spec (c : Nat → Nat → ℚ) :
    ∀ i j, j ≤ i →
      (backtrack c i j).length = i + 1 ∧
      (backtrack c i j).headD 0 = 0 ∧
      (backtrack c i j).getLast? = some j ∧
      List.Chain' stepRel (backtrack c i j) ∧
      ((pathCost c (backtrack c i j) : ℚ) : WithTop ℚ) = best c i j := by
  intro i
  induction i with
  | zero =>
    intro j hj
    interval_cases j
    refine ⟨rfl, rfl, rfl, ?_, ?_⟩
    · simp [backtrack]
    · simp [backtrack, pathCost_singleton, best]
  | succ i ih =>
    intro j hj
    match j with
    | 0 =>
      obtain ⟨hlen, hhead, hlast, hchain, hcost⟩ := ih 0 (Nat.zero_le i)
      have hne : backtrack c i 0 ≠ [] := by
        intro h
        rw [h] at hlen
        simp at hlen
      refine ⟨?_, ?_, ?_, ?_, ?_⟩
      · simp [backtrack, hlen]
      · rw [show backtrack c (i + 1) 0 = backtrack c i 0 ++ [0] from rfl,
          headD_append_left _ _ hne]
        exact hhead
      · simp [backtrack]
      · rw [backtrack, List.chain'_append]
        refine ⟨hchain, List.chain'_singleton 0, ?_⟩
        intro x hx y hy
        rw [hlast] at hx
        simp only [Option.mem_def, Option.some.injEq] at hx
        simp only [List.head?_cons, Option.mem_def, Option.some.injEq] at hy
        subst hx; subst hy
        exact Or.inl rfl
      · rw [backtrack, pathCost_append_singleton, hlen]
        rw [best, ← hcost, ← WithTop.coe_add]
        rw [WithTop.coe_inj]
        ring
    | j + 1 =>
      have hji : j ≤ i := Nat.lt_succ_iff.mp hj
      by_cases hadv : best c i j ≤ best c i (j + 1)
      · obtain ⟨hlen, hhead, hlast, hchain, hcost⟩ := ih j hji
        have hne : backtrack c i j ≠ [] := by
          intro h
          rw [h] at hlen
          simp at hlen
        have hbt : backtrack c (i + 1) (j + 1) = backtrack c i j ++ [j + 1] := by
          rw [backtrack, if_pos hadv]
        refine ⟨?_, ?_, ?_, ?_, ?_⟩
        · simp [hbt, hlen]
        · rw [hbt, headD_append_left _ _ hne]
          exact hhead
        · simp [hbt]
        · rw [hbt, List.chain'_append]
          refine ⟨hchain, List.chain'_singleton _, ?_⟩
          intro x hx y hy
          rw [hlast] at hx
          simp only [Option.mem_def, Option.some.injEq] at hx
          simp only [List.head?_cons, Option.mem_def, Option.some.injEq] at hy
          subst hx; subst hy
          exact Or.inr rfl
        · rw [hbt, pathCost_append_singleton, hlen]
          rw [best, min_eq_right hadv, ← hcost, ← WithTop.coe_add]
          rw [WithTop.coe_inj]
          ring
      · have hj1i : j + 1 ≤ i := by
          rcases Nat.lt_or_ge i (j + 1) with hlt | hge
          · exfalso
            have htop : best c i (j + 1) = ⊤ := best_eq_top c i (j + 1) hlt
            have hne2 : best c i j ≠ ⊤ := best_ne_top c i j hji
            exact hadv (htop ▸ le_top)
          · exact hge
        obtain ⟨hlen, hhead, hlast, hchain, hcost⟩ := ih (j + 1) hj1i
        have hne : backtrack c i (j + 1) ≠ [] := by
          intro h
          rw [h] at hlen
          simp at hlen
        have hbt : backtrack c (i + 1) (j + 1) = backtrack c i (j + 1) ++ [j + 1] := by
          rw [backtrack, if_neg hadv]
        refine ⟨?_, ?_, ?_, ?_, ?_⟩
        · simp [hbt, hlen]
        · rw [hbt, headD_append_left _ _ hne]
          exact hhead
        · simp [hbt]
        · rw [hbt, List.chain'_append]
          refine ⟨hchain, List.chain'_singleton _, ?_⟩
          intro x hx y hy
          rw [hlast] at hx
          simp only [Option.mem_def, Option.some.injEq] at hx
          simp only [List.head?_cons, Option.mem_def, Option.some.injEq] at hy
          subst hx; subst hy
          exact Or.inl rfl
        · rw [hbt, pathCost_append_singleton, hlen]
          have hmin : min (best c i (j + 1)) (best c i j) = best c i (j + 1) :=
            min_eq_left (le_of_not_le hadv)
          rw [best, hmin, ← hcost, ← WithTop.coe_add]
          rw [WithTop.coe_inj]
          ring

/-- Any monotonic partial path ending at token `a` after `p.length + 1` frames
costs at least the DP value of its final cell. -/
theorem best_le_pathCost (c : Nat → Nat → ℚ) :
    ∀ (p : List Nat) (a : Nat), List.Chain' stepRel (p ++ [a]) →
      (p ++ [a]).headD 0 = 0 →
      best c p.length a ≤ ((pathCost c (p ++ [a]) : ℚ) : WithTop ℚ) := by
  intro p
  induction p using List.reverseRecOn with
  | nil =>
    intro a _ hhead
    simp only [List.nil_append, List.headD_cons] at hhead
    subst hhead
    simp [best, pathCost_singleton]
  | append_singleton q b ih =>
    intro a hchain hhead
    have hchain2 : List.Chain' stepRel ((q ++ [b]) ++ [a]) := hchain
    rw [List.chain'_append] at hchain2
    obtain ⟨hcq, _, hstep⟩ := hchain2
    have hba : stepRel b a := by
      apply hstep b _ a
      · simp
      · simp
    have hne : q ++ [b] ≠ [] := by simp
    have hhead2 : (q ++ [b]).headD 0 = 0 := by
      rw [headD_append_left _ _ hne] at hhead
      exact hhead
    have hih : best c q.length b ≤ ((pathCost c (q ++ [b]) : ℚ) : WithTop ℚ) :=
      ih b hcq hhead2
    have hcosteq : pathCost c ((q ++ [b]) ++ [a]) =
        pathCost c (q ++ [b]) + c (q.length + 1) a := by
      rw [pathCost_append_singleton]
      simp
    have hlen : (q ++ [b]).length = q.length + 1 := by simp
    rw [hlen, hcosteq]
    rcases hba with hb | hb
    · have hle : best c (q.length + 1) a ≤
          ((c (q.length + 1) a : ℚ) : WithTop ℚ) + best c q.length a := by
        match a with
        | 0 => rw [best]
        | j + 1 =>
          rw [best]
          exact add_le_add_left (min_le_left _ _) _
      calc best c (q.length + 1) a
          ≤ ((c (q.length + 1) a : ℚ) : WithTop ℚ) + best c q.length a := hle
        _ = ((c (q.length + 1) a : ℚ) : WithTop ℚ) + best c q.length b := by rw [hb]
        _ ≤ ((c (q.length + 1) a : ℚ) : WithTop ℚ) +
            ((pathCost c (q ++ [b]) : ℚ) : WithTop ℚ) := add_le_add_left hih _
        _ = ((pathCost c (q ++ [b]) + c (q.length + 1) a : ℚ) : WithTop ℚ) := by
            rw [← WithTop.coe_add, WithTop.coe_inj]
            ring
    · subst hb
      have hle : best c (q.length + 1) (b + 1) ≤
          ((c (q.length + 1) (b + 1) : ℚ) : WithTop ℚ) + best c q.length b := by
        rw [best]
        exact add_le_add_left (min_le_right _ _) _
      calc best c (q.length + 1) (b + 1)
          ≤ ((c (q.length + 1) (b + 1) : ℚ) : WithTop ℚ) + best c q.length b := hle
        _ ≤ ((c (q.length + 1) (b + 1) : ℚ) : WithTop ℚ) +
            ((pathCost c (q ++ [b]) : ℚ) : WithTop ℚ) := add_le_add_left hih _
        _ = ((pathCost c (q ++ [b]) + c (q.length + 1) (b + 1) : ℚ) : WithTop ℚ) := by
            rw [← WithTop.coe_add, WithTop.coe_inj]
            ring

/-- Global optimality of the DP value: every monotonic path of length `T`
from token 0 to token `N-1` costs at least `best c (T-1) (N-1)`. -/
theorem best_le_monotonic (c : Nat → Nat → ℚ) (T N : Nat) (q : List Nat)
    (hq : isMonotonicPath T N q) (hT : 1 ≤ T) :
    best c (T - 1) (N - 1) ≤ ((pathCost c q : ℚ) : WithTop ℚ) := by
  obtain ⟨hlen, hhead, hlast, hchain⟩ := hq
  have hne : q ≠ [] := by
    intro h
    rw [h] at hlen
    simp at hlen
    omega
  obtain ⟨q2, a, hq2⟩ := (List.eq_nil_or_concat q).resolve_left hne
  rw [List.concat_eq_append] at hq2
  subst hq2
  have hlen2 : q2.length = T - 1 := by
    simp at hlen
    omega
  have hlast2 : a = N - 1 := by
    rw [List.getLastD_eq_getLast?] at hlast
    simp at hlast
    exact hlast
  subst hlast2
  rw [← hlen2]
  exact best_le_pathCost c q2 (N - 1) hchain hhead

/-! ### Lemmas about monotonic paths and durations -/

theorem stepsOkB_iff_chain :
    ∀ p : List Nat, stepsOkB p = true ↔ List.Chain' stepRel p := by
  intro p
  match p with
  | [] => simp [stepsOkB]
  | [a] => simp [stepsOkB]
  | a :: b :: t =>
    rw [stepsOkB, List.chain'_cons, Bool.and_eq_true, stepsOkB_iff_chain (b :: t)]
    constructor
    · rintro ⟨h1, h2⟩
      refine ⟨?_, h2⟩
      simp only [Bool.or_eq_true, beq_iff_eq] at h1
      exact h1
    · rintro ⟨h1, h2⟩
      refine ⟨?_, h2⟩
      simp only [Bool.or_eq_true, beq_iff_eq]
      exact h1

theorem chain_mem_le_getLastD :
    ∀ p : List Nat, List.Chain' stepRel p → ∀ x ∈ p, x ≤ p.getLastD 0 := by
  intro p
  match p with
  | [] => intro _ x hx; simp at hx
  | [a] => intro _ x hx; simp at hx; simp [hx]
  | a :: b :: t =>
    intro hchain x hx
    rw [List.chain'_cons] at hchain
    obtain ⟨hab, hchain2⟩ := hchain
    have hlast : (a :: b :: t).getLastD 0 = (b :: t).getLastD 0 := by
      simp [List.getLastD_eq_getLast?]
    rw [hlast]
    rcases List.mem_cons.mp hx with hxa | hxbt
    · subst hxa
      have hb : b ≤ (b :: t).getLastD 0 :=
        chain_mem_le_getLastD (b :: t) hchain2 b (List.mem_cons_self _ _)
      rcases hab with h | h
      · omega
      · omega
    · exact chain_mem_le_getLastD (b :: t) hchain2 x hxbt

theorem chain_mem_of_between :
    ∀ p : List Nat, List.Chain' stepRel p → p ≠ [] →
      ∀ j, p.headD 0 ≤ j → j ≤ p.getLastD 0 → j ∈ p := by
  intro p
  match p with
  | [] => intro _ hne; exact absurd rfl hne
  | [a] =>
    intro _ _ j h1 h2
    simp only [List.headD_cons] at h1
    simp only [List.getLastD_eq_getLast?] at h2
    simp at h2
    have : j = a := le_antisymm h2 h1
    simp [this]
  | a :: b :: t =>
    intro hchain _ j h1 h2
    rw [List.chain'_cons] at hchain
    obtain ⟨hab, hchain2⟩ := hchain
    simp only [List.headD_cons] at h1
    have hlast : (a :: b :: t).getLastD 0 = (b :: t).getLastD 0 := by
      simp [List.getLastD_eq_getLast?]
    rw [hlast] at h2
    by_cases hja : j = a
    · simp [hja]
    · have hja2 : a < j := lt_of_le_of_ne h1 (Ne.symm hja)
      have hbj : b ≤ j := by
        rcases hab with h | h
        · omega
        · omega
      right
      exact chain_mem_of_between (b :: t) hchain2 (by simp) j
        (by simpa using hbj) h2

theorem indicator_sum_range (N a : Nat) :
    ((List.range N).map fun j => if a = j then (1 : Nat) else 0).sum =
      if a < N then 1 else 0 := by
  induction N with
  | zero => simp
  | succ N ih =>
    rw [List.range_succ, List.map_append, List.sum_append, ih]
    simp only [List.map_cons, List.map_nil, List.sum_cons, List.sum_nil]
    rcases Nat.lt_trichotomy a N with h | h | h
    · have h2 : a ≠ N := Nat.ne_of_lt h
      have h3 : a < N + 1 := Nat.lt_succ_of_lt h
      simp [h, h2, h3]
    · subst h
      simp [Nat.lt_irrefl, Nat.lt_succ_self]
    · have h1 : ¬ a < N := by omega
      have h2 : a ≠ N := by omega
      have h3 : ¬ a < N + 1 := by omega
      simp [h1, h2, h3]

theorem sum_counts_range (N : Nat) :
    ∀ p : List Nat, (∀ x ∈ p, x < N) →
      ((List.range N).map fun j => p.count j).sum = p.length := by
  intro p
  induction p with
  | nil => intro _; simp
  | cons a t ih =>
    intro hmem
    have hcnt : ∀ j, (a :: t).count j = t.count j + (if a = j then 1 else 0) := by
      intro j
      simp [List.count_cons]
    have hmap : (List.range N).map (fun j => (a :: t).count j) =
        (List.range N).map fun j => t.count j + (if a = j then 1 else 0) := by
      apply List.map_congr_left
      intro j _
      exact hcnt j
    rw [hmap]
    have hsplit : ((List.range N).map fun j =>
        t.count j + (if a = j then 1 else 0)).sum =
        ((List.range N).map fun j => t.count j).sum +
        ((List.range N).map fun j => if a = j then (1 : Nat) else 0).sum := by
      rw [← List.sum_map_add]
    rw [hsplit, ih (fun x hx => hmem x (List.mem_cons_of_mem _ hx)),
      indicator_sum_range]
    have ha : a < N := hmem a (List.mem_cons_self _ _)
    simp [ha]

theorem getD_map_range {γ : Type} (f : Nat → γ) (N j : Nat) (d : γ) (h : j < N) :
    (((List.range N).map f).getD j d) = f j := by
  have hlen : j < ((List.range N).map f).length := by simpa using h
  rw [List.getD_eq_getElem _ _ hlen, List.getElem_map]
  congr 1
  exact List.getElem_range _ _

/-! ### Glue lemmas for the exact decoder -/

theorem validInput_facts {P : List (List ℚ)} {tokens : List Nat}
    (hv : validInput P tokens) : 1 ≤ tokens.length ∧ 1 ≤ P.length := by
  obtain ⟨ht, hP, _⟩ := hv
  constructor
  · exact List.length_pos.mpr ht
  · exact List.length_pos.mpr hP

theorem decode_exact_eq_ok {negLog : ℚ → ℚ} {eps : ℚ} {P : List (List ℚ)}
    {tokens : List Nat} (hv : validInput P tokens)
    (hTN : tokens.length ≤ P.length) :
    decode_exact negLog eps P tokens =
      .ok (backtrack (cost negLog P tokens eps) (P.length - 1)
        (tokens.length - 1)) := by
  obtain ⟨hN1, hT1⟩ := validInput_facts hv
  have hnotlt : ¬ P.length < tokens.length := Nat.not_lt.mpr hTN
  have hjile : tokens.length - 1 ≤ P.length - 1 := by omega
  have hne : best (cost negLog P tokens eps) (P.length - 1) (tokens.length - 1) ≠ ⊤ :=
    best_ne_top _ _ _ hjile
  rw [decode_exact, if_pos hv, decodeExactFrom, if_neg hnotlt, if_neg hne]

theorem backtrack_isMonotonicPath {c : Nat → Nat → ℚ} {T N : Nat}
    (hN1 : 1 ≤ N) (hT1 : 1 ≤ T) (hNT : N ≤ T) :
    isMonotonicPath T N (backtrack c (T - 1) (N - 1)) := by
  have hjile : N - 1 ≤ T - 1 := by omega
  obtain ⟨hlen, hhead, hlast, hchain, _⟩ := backtrack_spec c (T - 1) (N - 1) hjile
  refine ⟨?_, hhead, ?_, hchain⟩
  · rw [hlen]
    omega
  · rw [List.getLastD_eq_getLast?, hlast]
    rfl

theorem backtrack_ne_nil {c : Nat → Nat → ℚ} {i j : Nat} (hj : j ≤ i) :
    backtrack c i j ≠ [] := by
  obtain ⟨hlen, _, _, _, _⟩ := backtrack_spec c i j hj
  intro h
  rw [h] at hlen
  simp at hlen

/-- The duration list computed by `to_durations` on any monotonic path. -/
theorem to_durations_spec {T N : Nat} {p : List Nat}
    (hp : isMonotonicPath T N p) (hN1 : 1 ≤ N) (hT1 : 1 ≤ T) :
    ∃ d, to_durations p N = some d ∧ d.length = N ∧ d.sum = T ∧
      ∀ j, j < N → 1 ≤ d.getD j 0 := by
  obtain ⟨hlen, hhead, hlast, hchain⟩ := hp
  have hne : p ≠ [] := by
    intro h
    rw [h] at hlen
    simp at hlen
    omega
  have hok : pathOkB N p = true := by
    rw [pathOkB]
    simp only [Bool.and_eq_true, Bool.not_eq_eq_eq_not, Bool.not_false,
      beq_iff_eq]
    refine ⟨⟨⟨?_, hhead⟩, hlast⟩, (stepsOkB_iff_chain p).mpr hchain⟩
    cases p with
    | nil => exact absurd rfl hne
    | cons x t => rfl
  have hmemN : ∀ x ∈ p, x < N := by
    intro x hx
    have hle : x ≤ p.getLastD 0 := chain_mem_le_getLastD p hchain x hx
    rw [hlast] at hle
    omega
  refine ⟨(List.range N).map fun j => p.count j, ?_, ?_, ?_, ?_⟩
  · rw [to_durations, if_pos hok]
  · simp
  · rw [sum_counts_range N p hmemN, hlen]
  · intro j hj
    rw [getD_map_range _ _ _ _ hj]
    apply List.count_pos_iff.mpr
    apply chain_mem_of_between p hchain hne j
    · rw [hhead]
      exact Nat.zero_le j
    · rw [hlast]
      omega

/-! ### Claim theorems: exact decoder -/

/-- Claim C1: for every posterior matrix and token sequence with `T ≥ N`, the
path returned by `decode_exact` is a monotonic alignment path and is globally
optimal: no monotonic path (starting at token 0, ending at token `N-1`, each
step staying or advancing by one token) has strictly lower total cost, the
total cost being the sum of `cost(i, path[i])` over all frames.  Since the
bound is universally quantified over all monotonic paths, it in particular
matches brute-force enumeration on small `T, N`. -/
theorem decode_exact_optimal (negLog : ℚ → ℚ) (eps : ℚ) (P : List (List ℚ))
    (tokens : List Nat) (hv : validInput P tokens)
    (hTN : tokens.length ≤ P.length) :
    ∃ p, decode_exact negLog eps P tokens = .ok p ∧
      isMonotonicPath P.length tokens.length p ∧
      ∀ q, isMonotonicPath P.length tokens.length q →
        pathCost (cost negLog P tokens eps) p ≤
          pathCost (cost negLog P tokens eps) q := by
  obtain ⟨hN1, hT1⟩ := validInput_facts hv
  refine ⟨_, decode_exact_eq_ok hv hTN, backtrack_isMonotonicPath hN1 hT1 hTN, ?_⟩
  intro q hq
  have hjile : tokens.length - 1 ≤ P.length - 1 := by omega
  obtain ⟨_, _, _, _, hcost⟩ :=
    backtrack_spec (cost negLog P tokens eps) (P.length - 1) (tokens.length - 1) hjile
  have hle := best_le_monotonic (cost negLog P tokens eps) P.length tokens.length q hq hT1
  rw [← hcost] at hle
  exact_mod_cast hle

/-- Claim C2: for every valid input with `T ≥ N`, `decode_exact` followed by
`to_durations` yields a duration sequence of length exactly `N` whose entries
sum to exactly `T`, with `duration[j] ≥ 1` for every token position `j`. -/
theorem decode_exact_durations (negLog : ℚ → ℚ) (eps : ℚ) (P : List (List ℚ))
    (tokens : List Nat) (hv : validInput P tokens)
    (hTN : tokens.length ≤ P.length) :
    ∃ p d, decode_exact negLog eps P tokens = .ok p ∧
      to_durations p tokens.length = some d ∧
      d.length = tokens.length ∧ d.sum = P.length ∧
      ∀ j, j < tokens.length → 1 ≤ d.getD j 0 := by
  obtain ⟨hN1, hT1⟩ := validInput_facts hv
  obtain ⟨d, hd, hdlen, hdsum, hdpos⟩ :=
    to_durations_spec (backtrack_isMonotonicPath
      (c := cost negLog P tokens eps) hN1 hT1 hTN) hN1 hT1
  exact ⟨_, d, decode_exact_eq_ok hv hTN, hd, hdlen, hdsum, hdpos⟩

/-- Claim C4: a decode call raises `InvalidInput`, checked eagerly before any
computation, exactly when `N = 0`, `T = 0`, or some token index is outside the
matrix's symbol range; given a valid input it raises `InfeasibleAlignment`
exactly when `T < N` or the final DP cell is unreachable; in particular any
valid input with `T = 2, N = 3` raises `InfeasibleAlignment`. -/
theorem decode_exact_error_taxonomy (negLog : ℚ → ℚ) (eps : ℚ)
    (P : List (List ℚ)) (tokens : List Nat) :
    (decode_exact negLog eps P tokens = .error .invalidInput ↔
      (tokens.length = 0 ∨ P.length = 0 ∨ ∃ t ∈ tokens, numSymbols P ≤ t)) ∧
    (decode_exact negLog eps P tokens = .error .infeasibleAlignment ↔
      (validInput P tokens ∧ (P.length < tokens.length ∨
        best (cost negLog P tokens eps) (P.length - 1) (tokens.length - 1) = ⊤))) ∧
    (P.length = 2 → tokens.length = 3 → validInput P tokens →
      decode_exact negLog eps P tokens = .error .infeasibleAlignment) := by
  have hinv : ¬ validInput P tokens ↔
      (tokens.length = 0 ∨ P.length = 0 ∨ ∃ t ∈ tokens, numSymbols P ≤ t) := by
    rw [validInput]
    push_neg
    constructor
    · intro h
      by_cases ht : tokens = []
      · left
        rw [ht]
        rfl
      · by_cases hP : P = []
        · right; left
          rw [hP]
          rfl
        · obtain ⟨t, htmem, htge⟩ := h ht hP
          exact Or.inr (Or.inr ⟨t, htmem, htge⟩)
    · intro h ht hP
      rcases h with h | h | h
      · exact absurd (List.length_eq_zero.mp h) ht
      · exact absurd (List.length_eq_zero.mp h) hP
      · exact h
  by_cases hv : validInput P tokens
  · constructor
    · rw [decode_exact, if_pos hv]
      constructor
      · intro h
        exfalso
        rw [decodeExactFrom] at h
        by_cases h1 : P.length < tokens.length
        · rw [if_pos h1] at h
          exact DecodeError.noConfusion (Except.error.inj h)
        · rw [if_neg h1] at h
          by_cases h2 : best (cost negLog P tokens eps) (P.length - 1)
              (tokens.length - 1) = ⊤
          · rw [if_pos h2] at h
            exact DecodeError.noConfusion (Except.error.inj h)
          · rw [if_neg h2] at h
            exact Except.noConfusion h
      · intro h
        exfalso
        rcases h with h | h | h
        · exact hv.1 (List.length_eq_zero.mp h)
        · exact hv.2.1 (List.length_eq_zero.mp h)
        · obtain ⟨t, htm, htge⟩ := h
          exact absurd (hv.2.2 t htm) (Nat.not_lt.mpr htge)
    constructor
    · rw [decode_exact, if_pos hv, decodeExactFrom]
      constructor
      · intro h
        by_cases h1 : P.length < tokens.length
        · exact ⟨hv, Or.inl h1⟩
        · rw [if_neg h1] at h
          by_cases h2 : best (cost negLog P tokens eps) (P.length - 1)
              (tokens.length - 1) = ⊤
          · exact ⟨hv, Or.inr h2⟩
          · rw [if_neg h2] at h
            exact Except.noConfusion h
      · rintro ⟨_, h | h⟩
        · rw [if_pos h]
        · by_cases h1 : P.length < tokens.length
          · rw [if_pos h1]
          · rw [if_neg h1, if_pos h]
    · intro hT2 hN3 _
      rw [decode_exact, if_pos hv, decodeExactFrom, if_pos]
      rw [hT2, hN3]
      omega
  · rw [decode_exact, if_neg hv]
    refine ⟨?_, ?_, ?_⟩
    · simp only [Except.error.injEq, true_iff]
      exact hinv.mp hv
    · constructor
      · intro h
        exact DecodeError.noConfusion (Except.error.inj h)
      · rintro ⟨hv2, _⟩
        exact absurd hv2 hv
    · intro _ _ hv2
      exact absurd hv2 hv

/-- Claim C6: the per-cell cost is `negLog` applied to
`max(P[i][token[j]], ε)` for a positive floor `ε`; the floored probability is
always at least `ε` and strictly positive (so an exact zero is never passed to
the logarithm), and decoding a feasible input containing exact-zero
probability entries still completes with a path. -/
theorem cost_floor_tolerates_zeros (negLog : ℚ → ℚ) (eps : ℚ)
    (P : List (List ℚ)) (tokens : List Nat) (heps : 0 < eps)
    (hzero : ∃ i v, i < P.length ∧ v < numSymbols P ∧ entry P i v = 0) :
    (∀ i j, cost negLog P tokens eps i j =
        negLog (max (entry P i (tokens.getD j 0)) eps)) ∧
    (∀ i j, eps ≤ flooredProb P tokens eps i j ∧
      0 < flooredProb P tokens eps i j) ∧
    (validInput P tokens → tokens.length ≤ P.length →
      ∃ p, decode_exact negLog eps P tokens = .ok p) := by
  refine ⟨fun i j => rfl, fun i j => ⟨le_max_right _ _, ?_⟩, fun hv hTN =>
    ⟨_, decode_exact_eq_ok hv hTN⟩⟩
  exact lt_of_lt_of_le heps (le_max_right _ _)

/-! ### Uniform-cost behaviour and the canonical tie-break -/

theorem best_congr (c1 c2 : Nat → Nat → ℚ) :
    ∀ i j, (∀ i2 j2, i2 ≤ i → j2 ≤ j → c1 i2 j2 = c2 i2 j2) →
      best c1 i j = best c2 i j := by
  intro i
  induction i with
  | zero =>
    intro j hc
    match j with
    | 0 => simp [best, hc 0 0 (le_refl _) (le_refl _)]
    | j + 1 => simp [best]
  | succ i ih =>
    intro j hc
    match j with
    | 0 =>
      rw [best, best, hc (i + 1) 0 (le_refl _) (le_refl _),
        ih 0 fun i2 j2 h2 h3 => hc i2 j2 (Nat.le_succ_of_le h2) h3]
    | j + 1 =>
      rw [best, best, hc (i + 1) (j + 1) (le_refl _) (le_refl _),
        ih (j + 1) fun i2 j2 h2 h3 => hc i2 j2 (Nat.le_succ_of_le h2) h3,
        ih j fun i2 j2 h2 h3 => hc i2 j2 (Nat.le_succ_of_le h2) (Nat.le_succ_of_le h3)]

theorem backtrack_congr (c1 c2 : Nat → Nat → ℚ) :
    ∀ i j, (∀ i2 j2, i2 ≤ i → j2 ≤ j → c1 i2 j2 = c2 i2 j2) →
      backtrack c1 i j = backtrack c2 i j := by
  intro i
  induction i with
  | zero => intro j _; rfl
  | succ i ih =>
    intro j hc
    match j with
    | 0 =>
      rw [backtrack, backtrack,
        ih 0 fun i2 j2 h2 h3 => hc i2 j2 (Nat.le_succ_of_le h2) h3]
    | j + 1 =>
      have hbj : best c1 i j = best c2 i j :=
        best_congr c1 c2 i j fun i2 j2 h2 h3 =>
          hc i2 j2 (Nat.le_succ_of_le h2) (Nat.le_succ_of_le h3)
      have hbj1 : best c1 i (j + 1) = best c2 i (j + 1) :=
        best_congr c1 c2 i (j + 1) fun i2 j2 h2 h3 =>
          hc i2 j2 (Nat.le_succ_of_le h2) h3
      rw [backtrack, backtrack, hbj, hbj1]
      by_cases hcond : best c2 i j ≤ best c2 i (j + 1)
      · rw [if_pos hcond, if_pos hcond,
          ih j fun i2 j2 h2 h3 => hc i2 j2 (Nat.le_succ_of_le h2) (Nat.le_succ_of_le h3)]
      · rw [if_neg hcond, if_neg hcond,
          ih (j + 1) fun i2 j2 h2 h3 => hc i2 j2 (Nat.le_succ_of_le h2) h3]

theorem best_const (k : ℚ) :
    ∀ i j, best (fun _ _ => k) i j =
      if j ≤ i then ((((i : ℚ) + 1) * k : ℚ) : WithTop ℚ) else ⊤ := by
  intro i
  induction i with
  | zero =>
    intro j
    match j with
    | 0 =>
      rw [best, if_pos (le_refl 0)]
      rw [WithTop.coe_inj]
      push_cast
      ring
    | j + 1 =>
      rw [best, if_neg (by omega)]
  | succ i ih =>
    intro j
    match j with
    | 0 =>
      rw [best, ih 0, if_pos (Nat.zero_le i), if_pos (Nat.zero_le (i + 1)),
        ← WithTop.coe_add, WithTop.coe_inj]
      push_cast
      ring
    | j + 1 =>
      by_cases hj : j + 1 ≤ i + 1
      · have hji : j ≤ i := by omega
        have hbj : best (fun _ _ => k) i j =
            ((((i : ℚ) + 1) * k : ℚ) : WithTop ℚ) := by
          rw [ih j, if_pos hji]
        have hmin : min (best (fun _ _ => k) i (j + 1)) (best (fun _ _ => k) i j) =
            ((((i : ℚ) + 1) * k : ℚ) : WithTop ℚ) := by
          by_cases hj1 : j + 1 ≤ i
          · rw [ih (j + 1), if_pos hj1, hbj, min_self]
          · rw [ih (j + 1), if_neg hj1, hbj, min_eq_right le_top]
        rw [best, hmin, if_pos hj, ← WithTop.coe_add, WithTop.coe_inj]
        push_cast
        ring
      · have hj1 : ¬ j + 1 ≤ i := by omega
        have hji : ¬ j ≤ i := by omega
        rw [best, ih (j + 1), ih j, if_neg hj1, if_neg hji, if_neg hj, min_self]
        exact add_top _

theorem backtrack_const (k : ℚ) :
    ∀ i j, j ≤ i → backtrack (fun _ _ => k) i j =
      List.replicate (i - j + 1) 0 ++ (List.range j).map (· + 1) := by
  intro i
  induction i with
  | zero =>
    intro j hj
    interval_cases j
    simp [backtrack]
  | succ i ih =>
    intro j hj
    match j with
    | 0 =>
      rw [backtrack, ih 0 (Nat.zero_le i)]
      simp [List.replicate_succ', Nat.sub_zero, List.append_assoc]
    | j + 1 =>
      have hji : j ≤ i := by omega
      have hcond : best (fun _ _ => k) i j ≤ best (fun _ _ => k) i (j + 1) := by
        rw [best_const, best_const, if_pos hji]
        by_cases hj1 : j + 1 ≤ i
        · rw [if_pos hj1]
        · rw [if_neg hj1]
          exact le_top
      rw [backtrack, if_pos hcond, ih j hji, List.range_succ, List.map_append]
      have hsub : i + 1 - (j + 1) = i - j := by omega
      rw [hsub, ← List.append_assoc]
      rfl

theorem headD_replicate {γ : Type} (T : Nat) (x d : γ) (hT : 1 ≤ T) :
    (List.replicate T x).headD d = x := by
  match T, hT with
  | T + 1, _ => rw [List.replicate_succ]; rfl

theorem getD_replicate_of_lt {γ : Type} {T i : Nat} (x d : γ) (hi : i < T) :
    (List.replicate T x).getD i d = x := by
  have hlen : i < (List.replicate T x).length := by simpa using hi
  rw [List.getD_eq_getElem _ _ hlen, List.getElem_replicate]

theorem cost_uniform (negLog : ℚ → ℚ) (eps v : ℚ) (T V : Nat) (ts : List Nat)
    (hts : ∀ t ∈ ts, t < V) :
    ∀ i j, i < T → j < ts.length →
      cost negLog (List.replicate T (List.replicate V v)) ts eps i j =
        negLog (max v eps) := by
  intro i j hi hj
  rw [cost, flooredProb, entry]
  have hrow : (List.replicate T (List.replicate V v)).getD i [] =
      List.replicate V v := getD_replicate_of_lt _ _ hi
  have htok : ts.getD j 0 ∈ ts := by
    rw [List.getD_eq_getElem _ _ hj]
    exact List.getElem_mem _
  have htokV : ts.getD j 0 < V := hts _ htok
  rw [hrow, getD_replicate_of_lt _ _ htokV]

/-- Claim C3: whenever two predecessor transitions into a cell have exactly
equal cumulative cost, the exact decoder's backtracking and the beam decoder's
candidate merge both choose the "advance" predecessor; consequently, on a
posterior matrix with perfectly uniform probabilities (so every cell cost is
equal) `decode_exact` deterministically produces the alignment in which every
tie is resolved to "advance": the first token absorbs the surplus frames and
every later token receives exactly one frame. -/
theorem tie_break_prefers_advance :
    (∀ (c : Nat → Nat → ℚ) (i j : Nat), j ≤ i →
      best c i j = best c i (j + 1) →
      backtrack c (i + 1) (j + 1) = backtrack c i j ++ [j + 1]) ∧
    (∀ (v : ℚ) (j : Nat) (p1 p2 : List Nat),
      bestAt [⟨j, v, false, p1⟩, ⟨j, v, true, p2⟩] j = some ⟨j, v, true, p2⟩ ∧
      bestAt [⟨j, v, true, p2⟩, ⟨j, v, false, p1⟩] j = some ⟨j, v, true, p2⟩) ∧
    (∀ (negLog : ℚ → ℚ) (eps v : ℚ) (T V : Nat) (ts : List Nat),
      1 ≤ ts.length → ts.length ≤ T → (∀ t ∈ ts, t < V) →
      decode_exact negLog eps (List.replicate T (List.replicate V v)) ts =
        .ok (List.replicate (T - ts.length + 1) 0 ++
          (List.range (ts.length - 1)).map (· + 1))) := by
  refine ⟨?_, ?_, ?_⟩
  · intro c i j _ htie
    rw [backtrack, if_pos (le_of_eq htie)]
  · intro v j p1 p2
    constructor
    · simp [bestAt, minByCost, consMin, minCombine]
    · simp [bestAt, minByCost, consMin, minCombine]
  · intro negLog eps v T V ts hN1 hNT hts
    have hT1 : 1 ≤ T := le_trans hN1 hNT
    have h800 : ts ≠ [] := by
      intro h
      rw [h] at hN1
      simp at hN1
    have hv : validInput (List.replicate T (List.replicate V v)) ts := by
      refine ⟨h800, ?_, ?_⟩
      · intro h
        have := congrArg List.length h
        simp at this
        omega
      · intro t ht
        rw [numSymbols, headD_replicate _ _ _ hT1]
        simpa using hts t ht
    have hTlen : (List.replicate T (List.replicate V v)).length = T := by simp
    rw [decode_exact_eq_ok hv (by rw [hTlen]; exact hNT), hTlen]
    congr 1
    have hcongr : backtrack
        (cost negLog (List.replicate T (List.replicate V v)) ts eps)
        (T - 1) (ts.length - 1) =
        backtrack (fun _ _ => negLog (max v eps)) (T - 1) (ts.length - 1) := by
      apply backtrack_congr
      intro i2 j2 h2 h3
      exact cost_uniform negLog eps v T V ts hts i2 j2 (by omega) (by omega)
    rw [hcongr, backtrack_const _ _ _ (by omega)]
    have hsub : T - 1 - (ts.length - 1) = T - ts.length := by omega
    rw [hsub]

/-! ### Lemmas about the beam decoder -/

theorem minByCost_eq_none_iff : ∀ l : List Hyp, minByCost l = none ↔ l = [] := by
  intro l
  match l with
  | [] => simp [minByCost]
  | h :: t =>
    rw [minByCost]
    constructor
    · intro hnone
      exfalso
      match hmt : minByCost t with
      | none =>
        rw [hmt, consMin] at hnone
        exact Option.noConfusion hnone
      | some m =>
        rw [hmt, consMin] at hnone
        by_cases hc : h.cost ≤ m.cost
        · rw [if_pos hc] at hnone; exact Option.noConfusion hnone
        · rw [if_neg hc] at hnone; exact Option.noConfusion hnone
    · intro hl
      exact List.noConfusion hl

theorem minByCost_some_spec :
    ∀ (l : List Hyp) (m : Hyp), minByCost l = some m →
      m ∈ l ∧ ∀ h2 ∈ l, m.cost ≤ h2.cost := by
  intro l
  match l with
  | [] => intro m hm; exact Option.noConfusion hm
  | h :: t =>
    intro m hm
    rw [minByCost] at hm
    match hmt : minByCost t with
    | none =>
      rw [hmt, consMin] at hm
      have ht : t = [] := (minByCost_eq_none_iff t).mp hmt
      subst ht
      have hm2 : h = m := Option.some.inj hm
      subst hm2
      refine ⟨List.mem_cons_self _ _, ?_⟩
      intro h2 hh2
      rcases List.mem_cons.mp hh2 with h3 | h3
      · rw [h3]
      · simp at h3
    | some m0 =>
      rw [hmt, consMin] at hm
      obtain ⟨hm0mem, hm0min⟩ := minByCost_some_spec t m0 hmt
      by_cases hc : h.cost ≤ m0.cost
      · rw [if_pos hc] at hm
        have hm2 : h = m := Option.some.inj hm
        subst hm2
        refine ⟨List.mem_cons_self _ _, ?_⟩
        intro h2 hh2
        rcases List.mem_cons.mp hh2 with h3 | h3
        · rw [h3]
        · exact le_trans hc (hm0min h2 h3)
      · rw [if_neg hc] at hm
        have hm2 : m0 = m := Option.some.inj hm
        subst hm2
        refine ⟨List.mem_cons_of_mem _ hm0mem, ?_⟩
        intro h2 hh2
        rcases List.mem_cons.mp hh2 with h3 | h3
        · rw [h3]
          exact le_of_not_le hc
        · exact hm0min h2 h3

theorem bestAt_some_spec {cands : List Hyp} {j : Nat} {m : Hyp}
    (hm : bestAt cands j = some m) :
    m ∈ cands ∧ m.tok = j ∧ ∀ h2 ∈ cands, h2.tok = j → m.cost ≤ h2.cost := by
  rw [bestAt] at hm
  have hmem_here : ∀ h2 ∈ cands, h2.tok = j →
      h2 ∈ cands.filter (fun h => h.tok == j) := by
    intro h2 hh2 htok
    apply List.mem_filter.mpr
    exact ⟨hh2, by simpa using htok⟩
  have hhere_facts : ∀ h2 ∈ cands.filter (fun h => h.tok == j),
      h2 ∈ cands ∧ h2.tok = j := by
    intro h2 hh2
    have := List.mem_filter.mp hh2
    exact ⟨this.1, by simpa using this.2⟩
  have hsplit : ∀ h2 ∈ cands.filter (fun h => h.tok == j),
      h2 ∈ (cands.filter (fun h => h.tok == j)).filter (fun h => h.via) ∨
      h2 ∈ (cands.filter (fun h => h.tok == j)).filter (fun h => !h.via) := by
    intro h2 hh2
    by_cases hv : h2.via
    · left
      exact List.mem_filter.mpr ⟨hh2, by simpa using hv⟩
    · right
      exact List.mem_filter.mpr ⟨hh2, by simpa using hv⟩
  match hadv : minByCost ((cands.filter fun h => h.tok == j).filter fun h => h.via),
        hsta : minByCost ((cands.filter fun h => h.tok == j).filter fun h => !h.via) with
  | some a, some s =>
    rw [hadv, hsta, minCombine] at hm
    obtain ⟨hamem, hamin⟩ := minByCost_some_spec _ a hadv
    obtain ⟨hsmem, hsmin⟩ := minByCost_some_spec _ s hsta
    have hahere := (List.mem_filter.mp hamem).1
    have hshere := (List.mem_filter.mp hsmem).1
    by_cases hc : a.cost ≤ s.cost
    · rw [if_pos hc] at hm
      have := Option.some.inj hm
      subst this
      refine ⟨(hhere_facts a hahere).1, (hhere_facts a hahere).2, ?_⟩
      intro h2 hh2 htok
      rcases hsplit h2 (hmem_here h2 hh2 htok) with hin | hin
      · exact hamin h2 hin
      · exact le_trans hc (hsmin h2 hin)
    · rw [if_neg hc] at hm
      have := Option.some.inj hm
      subst this
      refine ⟨(hhere_facts s hshere).1, (hhere_facts s hshere).2, ?_⟩
      intro h2 hh2 htok
      rcases hsplit h2 (hmem_here h2 hh2 htok) with hin | hin
      · exact le_trans (le_of_not_le hc) (hamin h2 hin)
      · exact hsmin h2 hin
  | some a, none =>
    rw [hadv, hsta, minCombine] at hm
    have := Option.some.inj hm
    subst this
    obtain ⟨hamem, hamin⟩ := minByCost_some_spec _ a hadv
    have hahere := (List.mem_filter.mp hamem).1
    have hempty := (minByCost_eq_none_iff _).mp hsta
    refine ⟨(hhere_facts a hahere).1, (hhere_facts a hahere).2, ?_⟩
    intro h2 hh2 htok
    rcases hsplit h2 (hmem_here h2 hh2 htok) with hin | hin
    · exact hamin h2 hin
    · rw [hempty] at hin
      simp at hin
  | none, some s =>
    rw [hadv, hsta, minCombine] at hm
    have := Option.some.inj hm
    subst this
    obtain ⟨hsmem, hsmin⟩ := minByCost_some_spec _ s hsta
    have hshere := (List.mem_filter.mp hsmem).1
    have hempty := (minByCost_eq_none_iff _).mp hadv
    refine ⟨(hhere_facts s hshere).1, (hhere_facts s hshere).2, ?_⟩
    intro h2 hh2 htok
    rcases hsplit h2 (hmem_here h2 hh2 htok) with hin | hin
    · rw [hempty] at hin
      simp at hin
    · exact hsmin h2 hin
  | none, none =>
    rw [hadv, hsta, minCombine] at hm
    exact Option.noConfusion hm

theorem bestAt_exists {cands : List Hyp} {j : Nat}
    (hex : ∃ h2 ∈ cands, h2.tok = j) : ∃ m, bestAt cands j = some m := by
  obtain ⟨h2, hh2, htok⟩ := hex
  rw [bestAt]
  have hh2here : h2 ∈ cands.filter (fun h => h.tok == j) :=
    List.mem_filter.mpr ⟨hh2, by simpa using htok⟩
  match hadv : minByCost ((cands.filter fun h => h.tok == j).filter fun h => h.via),
        hsta : minByCost ((cands.filter fun h => h.tok == j).filter fun h => !h.via) with
  | some a, some s =>
    rw [hadv, hsta, minCombine]
    by_cases hc : a.cost ≤ s.cost
    · exact ⟨a, by rw [if_pos hc]⟩
    · exact ⟨s, by rw [if_neg hc]⟩
  | some a, none => exact ⟨a, by rw [hadv, hsta, minCombine]⟩
  | none, some s => exact ⟨s, by rw [hadv, hsta, minCombine]⟩
  | none, none =>
    exfalso
    have hae := (minByCost_eq_none_iff _).mp hadv
    have hse := (minByCost_eq_none_iff _).mp hsta
    by_cases hv : h2.via
    · have : h2 ∈ (cands.filter (fun h => h.tok == j)).filter (fun h => h.via) :=
        List.mem_filter.mpr ⟨hh2here, by simpa using hv⟩
      rw [hae] at this
      simp at this
    · have : h2 ∈ (cands.filter (fun h => h.tok == j)).filter (fun h => !h.via) :=
        List.mem_filter.mpr ⟨hh2here, by simpa using hv⟩
      rw [hse] at this
      simp at this

theorem insertHyp_perm (h : Hyp) : ∀ l, List.Perm (insertHyp h l) (h :: l) := by
  intro l
  induction l with
  | nil => rfl
  | cons a t ih =>
    rw [insertHyp]
    by_cases hc : hypLE h a = true
    · rw [if_pos hc]
    · rw [if_neg hc]
      exact List.Perm.trans (List.Perm.cons a ih) (List.Perm.swap h a t)

theorem sortHyps_perm : ∀ l : List Hyp, List.Perm (sortHyps l) l := by
  intro l
  induction l with
  | nil => rfl
  | cons a t ih =>
    rw [sortHyps]
    exact List.Perm.trans (insertHyp_perm a (sortHyps t)) (List.Perm.cons a ih)

theorem expand_mem (c : Nat → Nat → ℚ) (N i : Nat) (h h2 : Hyp) :
    h2 ∈ expand c N i h ↔
      h2 = ⟨h.tok, h.cost + c i h.tok, false, h.path ++ [h.tok]⟩ ∨
      (h.tok + 1 < N ∧
        h2 = ⟨h.tok + 1, h.cost + c i (h.tok + 1), true, h.path ++ [h.tok + 1]⟩) := by
  rw [expand]
  by_cases hg : h.tok + 1 < N
  · rw [if_pos hg]
    simp [hg]
  · rw [if_neg hg]
    simp [hg]

theorem best_succ_le_stay (c : Nat → Nat → ℚ) (i j : Nat) :
    best c (i + 1) j ≤ ((c (i + 1) j : ℚ) : WithTop ℚ) + best c i j := by
  match j with
  | 0 => rw [best]
  | j + 1 =>
    rw [best]
    exact add_le_add_left (min_le_left _ _) _

theorem best_succ_le_adv (c : Nat → Nat → ℚ) (i j : Nat) :
    best c (i + 1) (j + 1) ≤
      ((c (i + 1) (j + 1) : ℚ) : WithTop ℚ) + best c i j := by
  rw [best]
  exact add_le_add_left (min_le_right _ _) _

theorem cands_facts {c : Nat → Nat → ℚ} {N i : Nat} {hyps : List Hyp}
    (hg : goodRow c N i hyps) :
    ∀ h2 ∈ hyps.flatMap (expand c N (i + 1)),
      h2.tok < N ∧ best c (i + 1) h2.tok ≤ ((h2.cost : ℚ) : WithTop ℚ) ∧
      h2.cost = pathCost c h2.path ∧ h2.path.length = i + 2 := by
  intro h2 hh2
  obtain ⟨par, hpar, hexp⟩ := List.mem_flatMap.mp hh2
  obtain ⟨htokN, hcost, hpc, hplen⟩ := hg.1 par hpar
  rcases (expand_mem c N (i + 1) par h2).mp hexp with hstay | ⟨hguard, hadv⟩
  · subst hstay
    refine ⟨htokN, ?_, ?_, ?_⟩
    · calc best c (i + 1) par.tok
          ≤ ((c (i + 1) par.tok : ℚ) : WithTop ℚ) + best c i par.tok :=
            best_succ_le_stay c i par.tok
        _ = ((c (i + 1) par.tok : ℚ) : WithTop ℚ) + ((par.cost : ℚ) : WithTop ℚ) := by
            rw [hcost]
        _ = ((par.cost + c (i + 1) par.tok : ℚ) : WithTop ℚ) := by
            rw [← WithTop.coe_add, WithTop.coe_inj]
            ring
    · show par.cost + c (i + 1) par.tok = pathCost c (par.path ++ [par.tok])
      rw [pathCost_append_singleton, hplen, ← hpc]
    · show (par.path ++ [par.tok]).length = i + 2
      simp [hplen]
  · subst hadv
    refine ⟨hguard, ?_, ?_, ?_⟩
    · calc best c (i + 1) (par.tok + 1)
          ≤ ((c (i + 1) (par.tok + 1) : ℚ) : WithTop ℚ) + best c i par.tok :=
            best_succ_le_adv c i par.tok
        _ = ((c (i + 1) (par.tok + 1) : ℚ) : WithTop ℚ) + ((par.cost : ℚ) : WithTop ℚ) := by
            rw [hcost]
        _ = ((par.cost + c (i + 1) (par.tok + 1) : ℚ) : WithTop ℚ) := by
            rw [← WithTop.coe_add, WithTop.coe_inj]
            ring
    · show par.cost + c (i + 1) (par.tok + 1) = pathCost c (par.path ++ [par.tok + 1])
      rw [pathCost_append_singleton, hplen, ← hpc]
    · show (par.path ++ [par.tok + 1]).length = i + 2
      simp [hplen]

theorem exists_cand {c : Nat → Nat → ℚ} {N i : Nat} {hyps : List Hyp}
    (hg : goodRow c N i hyps) (j : Nat) (hjN : j < N) (hji : j ≤ i + 1) :
    ∃ h2 ∈ hyps.flatMap (expand c N (i + 1)), h2.tok = j ∧
      ((h2.cost : ℚ) : WithTop ℚ) = best c (i + 1) j := by
  match j with
  | 0 =>
    obtain ⟨p0, hp0, htok0⟩ := hg.2 0 hjN (Nat.zero_le i)
    obtain ⟨_, hcost0, _, _⟩ := hg.1 p0 hp0
    refine ⟨⟨p0.tok, p0.cost + c (i + 1) p0.tok, false, p0.path ++ [p0.tok]⟩,
      List.mem_flatMap.mpr ⟨p0, hp0, (expand_mem c N (i + 1) p0 _).mpr (Or.inl rfl)⟩,
      htok0, ?_⟩
    show ((p0.cost + c (i + 1) p0.tok : ℚ) : WithTop ℚ) = best c (i + 1) 0
    rw [htok0] at hcost0 ⊢
    rw [show best c (i + 1) 0 = ((c (i + 1) 0 : ℚ) : WithTop ℚ) + best c i 0 from rfl,
      ← hcost0, ← WithTop.coe_add, WithTop.coe_inj]
    ring
  | j + 1 =>
    have hjN2 : j < N := by omega
    have hji2 : j ≤ i := by omega
    have hadvance : ∀ hmin : min (best c i (j + 1)) (best c i j) = best c i j,
        ∃ h2 ∈ hyps.flatMap (expand c N (i + 1)), h2.tok = j + 1 ∧
          ((h2.cost : ℚ) : WithTop ℚ) = best c (i + 1) (j + 1) := by
      intro hmin
      obtain ⟨p0, hp0, htok0⟩ := hg.2 j hjN2 hji2
      obtain ⟨_, hcost0, _, _⟩ := hg.1 p0 hp0
      have hguard : p0.tok + 1 < N := by
        rw [htok0]
        omega
      refine ⟨⟨p0.tok + 1, p0.cost + c (i + 1) (p0.tok + 1), true,
        p0.path ++ [p0.tok + 1]⟩,
        List.mem_flatMap.mpr ⟨p0, hp0,
          (expand_mem c N (i + 1) p0 _).mpr (Or.inr ⟨hguard, rfl⟩)⟩,
        by rw [htok0], ?_⟩
      show ((p0.cost + c (i + 1) (p0.tok + 1) : ℚ) : WithTop ℚ) = best c (i + 1) (j + 1)
      rw [htok0] at hcost0 ⊢
      rw [show best c (i + 1) (j + 1) =
        ((c (i + 1) (j + 1) : ℚ) : WithTop ℚ) +
          min (best c i (j + 1)) (best c i j) from rfl, hmin,
        ← hcost0, ← WithTop.coe_add, WithTop.coe_inj]
      ring
    by_cases hj1i : j + 1 ≤ i
    · by_cases hbb : best c i (j + 1) ≤ best c i j
      · obtain ⟨p1, hp1, htok1⟩ := hg.2 (j + 1) hjN hj1i
        obtain ⟨_, hcost1, _, _⟩ := hg.1 p1 hp1
        refine ⟨⟨p1.tok, p1.cost + c (i + 1) p1.tok, false, p1.path ++ [p1.tok]⟩,
          List.mem_flatMap.mpr ⟨p1, hp1,
            (expand_mem c N (i + 1) p1 _).mpr (Or.inl rfl)⟩,
          htok1, ?_⟩
        show ((p1.cost + c (i + 1) p1.tok : ℚ) : WithTop ℚ) = best c (i + 1) (j + 1)
        rw [htok1] at hcost1 ⊢
        rw [show best c (i + 1) (j + 1) =
          ((c (i + 1) (j + 1) : ℚ) : WithTop ℚ) +
            min (best c i (j + 1)) (best c i j) from rfl, min_eq_left hbb,
          ← hcost1, ← WithTop.coe_add, WithTop.coe_inj]
        ring
      · exact hadvance (min_eq_right (le_of_not_le hbb))
    · have htop : best c i (j + 1) = ⊤ := best_eq_top c i (j + 1) (by omega)
      refine hadvance ?_
      rw [htop]
      exact min_eq_right le_top

theorem beamStep_good {c : Nat → Nat → ℚ} {N K i : Nat} {hyps : List Hyp}
    (hN1 : 1 ≤ N) (hK : N ≤ K) (hg : goodRow c N i hyps) :
    goodRow c N (i + 1) (beamStep c N K (i + 1) hyps) := by
  have hbs : beamStep c N K (i + 1) hyps =
      (sortHyps ((List.range N).filterMap
        (bestAt (hyps.flatMap (expand c N (i + 1)))))).take K := rfl
  have hmlen : ((List.range N).filterMap
      (bestAt (hyps.flatMap (expand c N (i + 1))))).length ≤ N := by
    calc ((List.range N).filterMap
        (bestAt (hyps.flatMap (expand c N (i + 1))))).length
        ≤ (List.range N).length := List.length_filterMap_le _ _
      _ = N := by simp
  have hperm : List.Perm (beamStep c N K (i + 1) hyps)
      ((List.range N).filterMap (bestAt (hyps.flatMap (expand c N (i + 1))))) := by
    rw [hbs, List.take_of_length_le]
    · exact sortHyps_perm _
    · rw [(sortHyps_perm _).length_eq]
      omega
  constructor
  · intro h hh
    have hmerged : h ∈ (List.range N).filterMap
        (bestAt (hyps.flatMap (expand c N (i + 1)))) := hperm.mem_iff.mp hh
    obtain ⟨j, _, hba⟩ := List.mem_filterMap.mp hmerged
    obtain ⟨hmem, htok, hmin⟩ := bestAt_some_spec hba
    obtain ⟨htokN, hbl, hpc, hplen⟩ := cands_facts hg h hmem
    refine ⟨htokN, ?_, hpc, hplen⟩
    have htoki : h.tok ≤ i + 1 := by
      by_contra hcon
      have htop : best c (i + 1) h.tok = ⊤ := best_eq_top c (i + 1) h.tok (by omega)
      rw [htop] at hbl
      exact WithTop.coe_ne_top (top_le_iff.mp hbl)
    obtain ⟨h2, hh2, htok2, hcost2⟩ := exists_cand hg h.tok htokN htoki
    have hle : h.cost ≤ h2.cost := by
      apply hmin h2 hh2
      rw [htok2, htok]
    have hle2 : ((h.cost : ℚ) : WithTop ℚ) ≤ best c (i + 1) h.tok := by
      rw [← hcost2]
      exact_mod_cast hle
    exact le_antisymm hle2 hbl
  · intro j hjN hji
    obtain ⟨h2, hh2, htok2, _⟩ := exists_cand hg j hjN hji
    obtain ⟨m, hm⟩ := bestAt_exists ⟨h2, hh2, htok2⟩
    have hmmem : m ∈ (List.range N).filterMap
        (bestAt (hyps.flatMap (expand c N (i + 1)))) :=
      List.mem_filterMap.mpr ⟨j, List.mem_range.mpr hjN, hm⟩
    exact ⟨m, hperm.mem_iff.mpr hmmem, (bestAt_some_spec hm).2.1⟩

theorem beamRun_good (c : Nat → Nat → ℚ) (N K : Nat) (hN1 : 1 ≤ N)
    (hK : N ≤ K) : ∀ i, goodRow c N i (beamRun c N K i) := by
  intro i
  induction i with
  | zero =>
    constructor
    · intro h hh
      have hh2 : h = ⟨0, c 0 0, false, [0]⟩ := by simpa [beamRun] using hh
      subst hh2
      exact ⟨hN1, rfl, (pathCost_singleton c 0).symm, rfl⟩
    · intro j hjN hj0
      have hj : j = 0 := Nat.le_zero.mp hj0
      subst hj
      exact ⟨⟨0, c 0 0, false, [0]⟩, by simp [beamRun], rfl⟩
  | succ i ih => exact beamStep_good hN1 hK ih

/-- Claim C5: whenever the beam width `K` is at least the token count `N`, the
beam decoder returns an alignment whose total cost is identical to the total
cost of the alignment returned by the exact decoder on the same posterior
matrix and token sequence: a sufficiently wide beam never prunes the optimal
path. -/
theorem decode_beam_agrees_exact (negLog : ℚ → ℚ) (eps : ℚ)
    (P : List (List ℚ)) (tokens : List Nat) (K : Nat)
    (hv : validInput P tokens) (hTN : tokens.length ≤ P.length)
    (hK : tokens.length ≤ K) :
    ∃ p q, decode_beam negLog eps P tokens K = .ok p ∧
      decode_exact negLog eps P tokens = .ok q ∧
      pathCost (cost negLog P tokens eps) p =
        pathCost (cost negLog P tokens eps) q := by
  obtain ⟨hN1, hT1⟩ := validInput_facts hv
  have hgood := beamRun_good (cost negLog P tokens eps) tokens.length K hN1 hK
    (P.length - 1)
  obtain ⟨hf, hfmem, hftok⟩ := hgood.2 (tokens.length - 1) (by omega) (by omega)
  have hfindsome : ((beamRun (cost negLog P tokens eps) tokens.length K
      (P.length - 1)).find? (fun h => h.tok == tokens.length - 1)).isSome := by
    apply List.find?_isSome.mpr
    exact ⟨hf, hfmem, by simpa using hftok⟩
  obtain ⟨h0, hfind⟩ := Option.isSome_iff_exists.mp hfindsome
  have hh0mem := List.mem_of_find?_eq_some hfind
  have hh0tok : h0.tok = tokens.length - 1 := by
    have := List.find?_some hfind
    simpa using this
  obtain ⟨_, hcost0, hpc0, _⟩ := hgood.1 h0 hh0mem
  have hbeam : decode_beam negLog eps P tokens K = .ok h0.path := by
    rw [decode_beam, if_pos hv, if_neg (Nat.not_lt.mpr hTN), hfind]
  refine ⟨h0.path, _, hbeam, decode_exact_eq_ok hv hTN, ?_⟩
  have hexact := (backtrack_spec (cost negLog P tokens eps) (P.length - 1)
    (tokens.length - 1) (by omega)).2.2.2.2
  have hcast : ((pathCost (cost negLog P tokens eps) h0.path : ℚ) : WithTop ℚ) =
      ((pathCost (cost negLog P tokens eps)
        (backtrack (cost negLog P tokens eps) (P.length - 1)
          (tokens.length - 1)) : ℚ) : WithTop ℚ) := by
    rw [← hpc0, hcost0, hh0tok, hexact]
  exact_mod_cast hcast

/-! ### Claim theorems: model.py and config -/

/-- Claim C7, counterexample: selecting `beam` does not cause the beam decoder
to run — `_generate_plots` invokes the dijkstra (exact) decoder even when the
configured extraction method is `beam`. -/
theorem generate_plots_selector_counterexample :
    ¬ (generate_plots_decoder DFAlignerExtractionMethod.beam =
        DFAlignerExtractionMethod.beam) := by
  decide

/-- Claim C7, amended: the strategy selector admits exactly the two distinct
values `beam` and `dijkstra`, but the decoder invoked by the plot-generation
decode is always the dijkstra (exact) decoder, regardless of the supplied
selector. -/
theorem extraction_selector_two_values_dijkstra_always :
    (∀ m : DFAlignerExtractionMethod,
      m = DFAlignerExtractionMethod.beam ∨ m = DFAlignerExtractionMethod.dijkstra) ∧
    DFAlignerExtractionMethod.beam ≠ DFAlignerExtractionMethod.dijkstra ∧
    (∀ m, generate_plots_decoder m = DFAlignerExtractionMethod.dijkstra) := by
  refine ⟨?_, by decide, fun m => rfl⟩
  intro m
  cases m
  · exact Or.inl rfl
  · exact Or.inr rfl

theorem flatMap_replicate_length {γ : Type} :
    ∀ l : List (γ × Nat),
      (l.flatMap fun p => List.replicate p.2 p.1).length = (l.map Prod.snd).sum := by
  intro l
  induction l with
  | nil => rfl
  | cons a t ih => simp [ih]

/-- Claim C8: in the debug rendering of an alignment, each target token is
repeated exactly `duration[i]` times in sequence order, so the rendered
duration representation has total length (in tokens) equal to the sum of the
durations. -/
theorem target_duration_rep_length {γ : Type} (toks : List γ) (durs : List Nat)
    (hlen : toks.length = durs.length) :
    ∃ r, target_duration_rep toks durs = some r ∧
      r = (toks.zip durs).flatMap (fun p => List.replicate p.2 p.1) ∧
      r.length = durs.sum := by
  refine ⟨_, ?_, rfl, ?_⟩
  · rw [target_duration_rep, if_pos (le_of_eq hlen)]
  · rw [flatMap_replicate_length, List.map_snd_zip]
    exact le_of_eq hlen.symm

/-- Claim C9: every call to `Aligner.forward` increments the model's `step`
buffer by exactly 1, regardless of the training-mode flag, because the guard
tests the truthiness of the bound method `self.train`; hence two
otherwise-identical forward calls never observe the same step value. -/
theorem forward_always_increments_step :
    ∀ (mode mode2 : Bool) (step : Int),
      forward_step mode step = step + 1 ∧
      forward_step mode step = forward_step mode2 step ∧
      forward_step mode step ≠ step := by
  intro mode mode2 step
  refine ⟨rfl, rfl, ?_⟩
  show step + 1 ≠ step
  omega

theorem softmax_row_length (e : ℚ → ℚ) (xs : List ℚ) :
    (softmax_row e xs).length = xs.length := by
  simp [softmax_row]

theorem predict_write_name_eq (basename speaker language : String) :
    predict_write_name basename speaker language =
      basename ++ "--" ++ speaker ++ "--" ++ language ++ "--" ++ "duration.npy" := by
  simp [predict_write_name, predictSep, String.intercalate, String.intercalate.go,
    String.append_assoc]

/-- Claim C10: for every batch item `b`, `predict_step` records a write to a
file named `<basename>--<speaker>--<language>--duration.npy` whose payload is
the row-wise softmax of the network output truncated to exactly `mel_len[b]`
frames — a `T × V` posterior matrix (one row per retained frame, `V` entries
per row), not an `N`-length duration sequence; the payload is a pure function
of the network output and lengths, with no duration-extraction decoder
involved. -/
theorem predict_step_writes_posteriors (e : ℚ → ℚ)
    (predBatch : List (List (List ℚ))) (melLen : List Nat)
    (basenames speakers languages : List String) (b Vdim : Nat)
    (hb : b < predBatch.length)
    (htrunc : melLen.getD b 0 ≤ (predBatch.getD b []).length)
    (hrows : ∀ row ∈ predBatch.getD b [], row.length = Vdim) :
    ∃ w, (predict_step e predBatch melLen basenames speakers languages).getD
        b ("", []) = w ∧
      w.1 = basenames.getD b "" ++ "--" ++ speakers.getD b "" ++ "--" ++
        languages.getD b "" ++ "--" ++ "duration.npy" ∧
      w.2 = ((predBatch.getD b []).take (melLen.getD b 0)).map (softmax_row e) ∧
      w.2.length = melLen.getD b 0 ∧
      ∀ row ∈ w.2, row.length = Vdim := by
  refine ⟨(predict_write_name (basenames.getD b "") (speakers.getD b "")
      (languages.getD b ""),
    ((predBatch.getD b []).take (melLen.getD b 0)).map (softmax_row e)),
    ?_, ?_, rfl, ?_, ?_⟩
  · rw [predict_step]
    exact getD_map_range _ _ _ _ hb
  · exact predict_write_name_eq _ _ _
  · rw [List.length_map, List.length_take]
    exact min_eq_left htrunc
  · intro row hrow
    obtain ⟨r0, hr0, hr0eq⟩ := List.mem_map.mp hrow
    have hr0mem : r0 ∈ predBatch.getD b [] := List.take_subset _ _ hr0
    rw [← hr0eq, softmax_row_length]
    exact hrows r0 hr0mem

/-! ### Witnesses -/

/-- Witness for claim C1 at the concrete input `T = 2, N = 2`. -/
theorem decode_exact_optimal_witness :
    validInput [[(1:ℚ)], [1]] [0, 0] ∧
    ([0, 0] : List Nat).length ≤ ([[(1:ℚ)], [1]] : List (List ℚ)).length ∧
    ∃ p, decode_exact (fun _ => (0:ℚ)) 1 [[(1:ℚ)], [1]] [0, 0] = .ok p ∧
      isMonotonicPath 2 2 p ∧
      ∀ q, isMonotonicPath 2 2 q →
        pathCost (cost (fun _ => (0:ℚ)) [[(1:ℚ)], [1]] [0, 0] 1) p ≤
          pathCost (cost (fun _ => (0:ℚ)) [[(1:ℚ)], [1]] [0, 0] 1) q :=
  ⟨by decide, by decide,
    decode_exact_optimal (fun _ => (0:ℚ)) 1 [[(1:ℚ)], [1]] [0, 0]
      (by decide) (by decide)⟩

/-- Witness for claim C2 at the concrete input `T = 3, N = 2`. -/
theorem decode_exact_durations_witness :
    validInput [[(1:ℚ)], [1], [1]] [0, 0] ∧
    ([0, 0] : List Nat).length ≤ ([[(1:ℚ)], [1], [1]] : List (List ℚ)).length ∧
    ∃ p d, decode_exact (fun _ => (0:ℚ)) 1 [[(1:ℚ)], [1], [1]] [0, 0] = .ok p ∧
      to_durations p 2 = some d ∧ d.length = 2 ∧ d.sum = 3 ∧
      ∀ j, j < 2 → 1 ≤ d.getD j 0 :=
  ⟨by decide, by decide,
    decode_exact_durations (fun _ => (0:ℚ)) 1 [[(1:ℚ)], [1], [1]] [0, 0]
      (by decide) (by decide)⟩

/-- Witness for claim C3: the cell `(2, 1)` under the all-zero cost function
is an exact tie and backtracking resolves it to "advance"; the concrete
two-candidate merge prefers the "advance" hypothesis; the uniform `3 × 1`
matrix with token sequence `[0, 0]` decodes to the canonical tie-broken
path. -/
theorem tie_break_prefers_advance_witness :
    (best (fun _ _ => (0:ℚ)) 1 0 = best (fun _ _ => (0:ℚ)) 1 1 ∧
      backtrack (fun _ _ => (0:ℚ)) 2 1 = backtrack (fun _ _ => (0:ℚ)) 1 0 ++ [1]) ∧
    bestAt [⟨0, (0:ℚ), false, []⟩, ⟨0, (0:ℚ), true, []⟩] 0 =
      some ⟨0, (0:ℚ), true, []⟩ ∧
    ((∀ t ∈ ([0, 0] : List Nat), t < 1) ∧
      decode_exact (fun _ => (0:ℚ)) 1
          (List.replicate 3 (List.replicate 1 (1:ℚ))) [0, 0] =
        .ok (List.replicate 2 0 ++ (List.range 1).map (· + 1))) := by
  have htie : best (fun _ _ => (0:ℚ)) 1 0 = best (fun _ _ => (0:ℚ)) 1 1 := by
    simp [best]
  exact ⟨⟨htie, tie_break_prefers_advance.1 (fun _ _ => (0:ℚ)) 1 0
      (Nat.zero_le 1) htie⟩,
    (tie_break_prefers_advance.2.1 0 0 [] []).1,
    by decide,
    tie_break_prefers_advance.2.2 (fun _ => (0:ℚ)) 1 1 3 1 [0, 0]
      (by decide) (by decide) (by decide)⟩

/-- Witness for claim C4 at the concrete infeasible input `T = 2, N = 3`. -/
theorem decode_exact_error_taxonomy_witness :
    (([[(1:ℚ)], [1]] : List (List ℚ)).length = 2 ∧
      ([0, 0, 0] : List Nat).length = 3 ∧
      validInput [[(1:ℚ)], [1]] [0, 0, 0]) ∧
    decode_exact (fun _ => (0:ℚ)) 1 [[(1:ℚ)], [1]] [0, 0, 0] =
      .error .infeasibleAlignment :=
  ⟨⟨rfl, rfl, by decide⟩,
    (decode_exact_error_taxonomy (fun _ => (0:ℚ)) 1 [[(1:ℚ)], [1]]
      [0, 0, 0]).2.2 rfl rfl (by decide)⟩

/-- Witness for claim C5 at the concrete input `T = 3, N = 2, K = 2`. -/
theorem decode_beam_agrees_exact_witness :
    validInput [[(1:ℚ)], [1], [1]] [0, 0] ∧
    ([0, 0] : List Nat).length ≤ ([[(1:ℚ)], [1], [1]] : List (List ℚ)).length ∧
    ([0, 0] : List Nat).length ≤ 2 ∧
    ∃ p q, decode_beam (fun _ => (0:ℚ)) 1 [[(1:ℚ)], [1], [1]] [0, 0] 2 = .ok p ∧
      decode_exact (fun _ => (0:ℚ)) 1 [[(1:ℚ)], [1], [1]] [0, 0] = .ok q ∧
      pathCost (cost (fun _ => (0:ℚ)) [[(1:ℚ)], [1], [1]] [0, 0] 1) p =
        pathCost (cost (fun _ => (0:ℚ)) [[(1:ℚ)], [1], [1]] [0, 0] 1) q :=
  ⟨by decide, by decide, by decide,
    decode_beam_agrees_exact (fun _ => (0:ℚ)) 1 [[(1:ℚ)], [1], [1]] [0, 0] 2
      (by decide) (by decide) (by decide)⟩

/-- Witness for claim C6 at a concrete matrix containing an exact-zero
probability entry. -/
theorem cost_floor_tolerates_zeros_witness :
    (0 : ℚ) < 1 ∧
    (∃ i v, i < ([[(0:ℚ), 1], [1, 0]] : List (List ℚ)).length ∧
      v < numSymbols [[(0:ℚ), 1], [1, 0]] ∧ entry [[(0:ℚ), 1], [1, 0]] i v = 0) ∧
    ((∀ i j, cost (fun _ => (0:ℚ)) [[(0:ℚ), 1], [1, 0]] [0, 1] 1 i j =
        (fun _ => (0:ℚ)) (max (entry [[(0:ℚ), 1], [1, 0]] i
          (([0, 1] : List Nat).getD j 0)) 1)) ∧
      (∀ i j, (1:ℚ) ≤ flooredProb [[(0:ℚ), 1], [1, 0]] [0, 1] 1 i j ∧
        0 < flooredProb [[(0:ℚ), 1], [1, 0]] [0, 1] 1 i j) ∧
      (validInput [[(0:ℚ), 1], [1, 0]] [0, 1] →
        ([0, 1] : List Nat).length ≤ ([[(0:ℚ), 1], [1, 0]] : List (List ℚ)).length →
        ∃ p, decode_exact (fun _ => (0:ℚ)) 1 [[(0:ℚ), 1], [1, 0]] [0, 1] = .ok p)) :=
  ⟨by norm_num, ⟨0, 0, by decide, by decide, rfl⟩,
    cost_floor_tolerates_zeros (fun _ => (0:ℚ)) 1 [[(0:ℚ), 1], [1, 0]] [0, 1]
      (by norm_num) ⟨0, 0, by decide, by decide, rfl⟩⟩

/-- Witness for claim C8: the rendering of tokens `[10, 20]` with durations
`[2, 1]` has length `3 = 2 + 1`. -/
theorem target_duration_rep_length_witness :
    ([10, 20] : List Nat).length = ([2, 1] : List Nat).length ∧
    ∃ r, target_duration_rep [10, 20] [2, 1] = some r ∧
      r = (([10, 20] : List Nat).zip [2, 1]).flatMap
        (fun p => List.replicate p.2 p.1) ∧
      r.length = ([2, 1] : List Nat).sum :=
  ⟨rfl, target_duration_rep_length [10, 20] [2, 1] rfl⟩

/-- Witness for claim C10 at a concrete one-item batch with three frames
truncated to two. -/
theorem predict_step_writes_posteriors_witness :
    0 < ([[[ (1:ℚ), 2], [3, 4], [5, 6]]] : List (List (List ℚ))).length ∧
    ([2] : List Nat).getD 0 0 ≤
      (([[[ (1:ℚ), 2], [3, 4], [5, 6]]] : List (List (List ℚ))).getD 0 []).length ∧
    (∀ row ∈ ([[[ (1:ℚ), 2], [3, 4], [5, 6]]] :
        List (List (List ℚ))).getD 0 [], row.length = 2) ∧
    ∃ w, (predict_step (fun q => q) [[[ (1:ℚ), 2], [3, 4], [5, 6]]] [2]
        ["base"] ["spk"] ["lang"]).getD 0 ("", []) = w ∧
      w.1 = "base" ++ "--" ++ "spk" ++ "--" ++ "lang" ++ "--" ++ "duration.npy" ∧
      w.2 = ((([[[ (1:ℚ), 2], [3, 4], [5, 6]]] :
          List (List (List ℚ))).getD 0 []).take
        (([2] : List Nat).getD 0 0)).map (softmax_row (fun q => q)) ∧
      w.2.length = ([2] : List Nat).getD 0 0 ∧
      ∀ row ∈ w.2, row.length = 2 := by
  refine ⟨by decide, by decide, by decide, ?_⟩
  have h := predict_step_writes_posteriors (fun q => q)
    [[[ (1:ℚ), 2], [3, 4], [5, 6]]] [2] ["base"] ["spk"] ["lang"] 0 2
    (by decide) (by decide) (by decide)
  obtain ⟨w, hw1, hw2, hw3, hw4, hw5⟩ := h
  exact ⟨w, hw1, by simpa using hw2, hw3, hw4, hw5⟩

end DFA
